import Mathlib

/-!
Shallow embedding of the core rendering pipeline of the `raytracer-2`
repository (a Rust path tracer).  Scalars are modelled by `ℚ`; the single
transcendental operation the core uses, `f32::sqrt`, is passed in as an
explicit function parameter `sq : ℚ → ℚ` and pinned down by an `IsSqrt`
hypothesis at the points where a proof needs the exact square root.
`Range<f32>` values whose end may be `f32::INFINITY` are modelled with a
`WithTop ℚ` end.  Randomness (`rand::random`, `Vec3::random_on_unit_sphere`,
...) is modelled by passing the drawn values as explicit arguments.
-/

/-- Says that `s` is the exact nonnegative square root of `x`; used to pin
down the value of the `sq` parameter that models `f32::sqrt`. -/
def IsSqrt (x s : ℚ) : Prop := 0 ≤ s ∧ s * s = x

instance (x s : ℚ) : Decidable (IsSqrt x s) := by
  unfold IsSqrt; infer_instance

/-- Model of `Vec3` from `src/vec3.rs`: three `f32` components, here `ℚ`. -/
structure Vec3 where
  x : ℚ
  y : ℚ
  z : ℚ
deriving DecidableEq

namespace Vec3

/-- Componentwise addition (`impl Add for Vec3`). -/
def add (a b : Vec3) : Vec3 := ⟨a.x + b.x, a.y + b.y, a.z + b.z⟩

instance : Add Vec3 := ⟨add⟩

/-- Componentwise negation (`impl Neg for Vec3`). -/
def neg (a : Vec3) : Vec3 := ⟨-a.x, -a.y, -a.z⟩

instance : Neg Vec3 := ⟨neg⟩

/-- Subtraction, defined as `self.add(-rhs)` as in the source. -/
def sub (a b : Vec3) : Vec3 := a + (-b)

instance : Sub Vec3 := ⟨sub⟩

/-- Scalar multiplication (`impl Mul<f32> for Vec3` / `impl Mul<Vec3> for f32`). -/
def smul (k : ℚ) (a : Vec3) : Vec3 := ⟨k * a.x, k * a.y, k * a.z⟩

instance : SMul ℚ Vec3 := ⟨smul⟩

/-- Componentwise (Hadamard) product (`impl Mul<Vec3> for Vec3`). -/
def hmul (a b : Vec3) : Vec3 := ⟨a.x * b.x, a.y * b.y, a.z * b.z⟩

instance : Mul Vec3 := ⟨hmul⟩

/-- Dot product (`Vec3::dot`). -/
def dot (a b : Vec3) : ℚ := a.x * b.x + a.y * b.y + a.z * b.z

/-- Squared length (`Vec3::len_squared`). -/
def len_squared (a : Vec3) : ℚ := a.dot a

/-- Model of `Vec3::normalize`: `self / self.len()` where
`len = len_squared.sqrt()` and division multiplies by the reciprocal; the
square root is supplied by the `sq` parameter. -/
def normalize (sq : ℚ → ℚ) (a : Vec3) : Vec3 := (sq a.len_squared)⁻¹ • a

/-- Model of `Vec3::reflect`: `*self - 2.0 * self.dot(&n) * n`. -/
def reflect (v n : Vec3) : Vec3 := v - (2 * v.dot n) • n

/-- Model of `Vec3::refract` from `src/vec3.rs`; the inner `f32::sqrt` is
supplied by the `sq` parameter. -/
def refract (sq : ℚ → ℚ) (v n : Vec3) (eta_i_over_eta_t : ℚ) : Vec3 :=
  let cos_theta := min ((-v).dot n) 1
  let r_out_perp := eta_i_over_eta_t • (v + cos_theta • n)
  let r_out_parallel := (-(sq |1 - r_out_perp.len_squared|)) • n
  r_out_perp + r_out_parallel

/-- Zero vector: `Vec3::default()` (`#[derive(Default)]` gives `[0.0; 3]`). -/
def zero : Vec3 := ⟨0, 0, 0⟩

instance : Inhabited Vec3 := ⟨zero⟩

end Vec3

/-- Model of `Ray` from `src/ray.rs`. -/
structure RayQ where
  origin : Vec3
  direction : Vec3
deriving DecidableEq

namespace RayQ

/-- Model of `Ray::at` (`at` is a Lean keyword): `origin + t * direction`. -/
def atParam (r : RayQ) (t : ℚ) : Vec3 := r.origin + t • r.direction

end RayQ

/-- Model of `std::ops::Range<f32>` as used for ray-parameter intervals; the
end carries `⊤` to model `f32::INFINITY`. -/
structure RangeF where
  start : ℚ
  stop : WithTop ℚ
deriving DecidableEq

namespace RangeF

/-- Model of `Range::contains` from `std`: `start <= t && t < end`. -/
def contains (I : RangeF) (t : ℚ) : Prop := I.start ≤ t ∧ (t : WithTop ℚ) < I.stop

instance (I : RangeF) (t : ℚ) : Decidable (I.contains t) := by
  unfold contains; infer_instance

end RangeF

/-- Model of the material variants referenced by hit records
(`src/material/{lambertian,metal,dielectric}.rs`). -/
inductive MaterialM where
  | lambertian (albedo : Vec3)
  | metal (albedo : Vec3) (fuzz : ℚ)
  | dielectric (ior : ℚ)
deriving DecidableEq

/-- Model of `HitRecord` from `src/geometry/mod.rs`. -/
structure HitRec where
  point : Vec3
  normal : Vec3
  material : MaterialM
  t : ℚ
  front_face : Bool
deriving DecidableEq

/-- Model of `HitRecord::set_face_normal` from `src/geometry/mod.rs`.  The
source sets `front_face = ray.direction().dot(&outward_normal).is_sign_negative()`;
on exact rationals (where no `-0.0` exists) `is_sign_negative` is the strict
test `dot < 0`.  Returns the `(front_face, normal)` pair the method stores. -/
def set_face_normal (r : RayQ) (outward_normal : Vec3) : Bool × Vec3 :=
  let front_face := decide (r.direction.dot outward_normal < 0)
  (front_face, if front_face then outward_normal else -outward_normal)

/-- Model of `Sphere` from `src/geometry/sphere.rs` (the cached
`radius_recip` field is `radius.recip()`, recomputed here as `radius⁻¹`). -/
structure SphereQ where
  center : Vec3
  radius : ℚ
  material : MaterialM
deriving DecidableEq

namespace SphereQ

/-- Discriminant `half_b * half_b - a * c` computed by `Sphere::hit`. -/
def disc (s : SphereQ) (r : RayQ) : ℚ :=
  let oc := r.origin - s.center
  let a := r.direction.len_squared
  let half_b := oc.dot r.direction
  let c := oc.len_squared - s.radius * s.radius
  half_b * half_b - a * c

/-- First root tried by `Sphere::hit`: `(-half_b - sqrtd) * a_recip`. -/
def root1 (sq : ℚ → ℚ) (s : SphereQ) (r : RayQ) : ℚ :=
  let oc := r.origin - s.center
  let a := r.direction.len_squared
  let half_b := oc.dot r.direction
  (-half_b - sq (s.disc r)) * a⁻¹

/-- Second root tried by `Sphere::hit`: `(-half_b + sqrtd) * a_recip`. -/
def root2 (sq : ℚ → ℚ) (s : SphereQ) (r : RayQ) : ℚ :=
  let oc := r.origin - s.center
  let a := r.direction.len_squared
  let half_b := oc.dot r.direction
  (-half_b + sq (s.disc r)) * a⁻¹

/-- Outward normal `(point - center) * radius_recip` computed by `Sphere::hit`. -/
def outward (s : SphereQ) (point : Vec3) : Vec3 := s.radius⁻¹ • (point - s.center)

/-- Hit record built by `Sphere::hit` for an accepted root, including the
`set_face_normal` call. -/
def mkRec (s : SphereQ) (r : RayQ) (root : ℚ) : HitRec :=
  let point := r.atParam root
  let outward_normal := s.outward point
  let fn := set_face_normal r outward_normal
  { point := point, normal := fn.2, material := s.material, t := root,
    front_face := fn.1 }

/-- Model of `Sphere::hit` from `src/geometry/sphere.rs`: reject a negative
discriminant, then try the smaller root, then the larger, accepting the
first that the interval contains. -/
def hit (sq : ℚ → ℚ) (s : SphereQ) (r : RayQ) (ray_t : RangeF) : Option HitRec :=
  if s.disc r < 0 then none
  else if ray_t.contains (s.root1 sq r) then some (s.mkRec r (s.root1 sq r))
  else if ray_t.contains (s.root2 sq r) then some (s.mkRec r (s.root2 sq r))
  else none

end SphereQ

/-!
Model of the intersection contract and `HittableList` from
`src/geometry/mod.rs`.  A member of the list is `dyn Hittable`: for the
purposes of one fixed ray, a contract-abiding member is determined by the
set of ray parameters at which it intersects the ray, and its `hit` returns
the record of the nearest such parameter inside the queried interval
(exactly what `Sphere::hit` does, see `SphereQ.hit_eq_objHit`).  We model a
member as the list of its candidate hit records along the ray.
-/

/-- Nearest-by-`t` record of a candidate list (ties go to the earlier
entry). -/
def minByT : List HitRec → Option HitRec
  | [] => none
  | h :: hs =>
    match minByT hs with
    | none => some h
    | some m => some (if h.t ≤ m.t then h else m)

/-- Contract-abiding `hit` of one member for the fixed ray: the nearest
candidate inside the queried interval. -/
def objHit (o : List HitRec) (I : RangeF) : Option HitRec :=
  minByT (o.filter fun h => decide (I.contains h.t))

/-- Model of the loop body of `HittableList::hit`: iterate the members,
narrowing the interval end to the best `t` seen so far. -/
def listHitAux (start : ℚ) : List (List HitRec) → WithTop ℚ → Option HitRec → Option HitRec
  | [], _, rec => rec
  | o :: rest, closest, rec =>
    match objHit o ⟨start, closest⟩ with
    | some record => listHitAux start rest (record.t : ℚ) (some record)
    | none => listHitAux start rest closest rec

/-- Model of `HittableList::hit` from `src/geometry/mod.rs`. -/
def listHit (objs : List (List HitRec)) (ray_t : RangeF) : Option HitRec :=
  listHitAux ray_t.start objs ray_t.stop none

/-- Random values one material `scatter` call may draw: a point from
`Vec3::random_on_unit_sphere` and a uniform `rand::random::<f32>()` draw. -/
structure RandDraw where
  unitVec : Vec3
  uniform : ℚ
deriving DecidableEq

/-- Model of `Lambertian::scatter` from `src/material/lambertian.rs`, with
the random unit vector supplied.  The `near_zero` test compares every
component magnitude with `1e-8`. -/
def lambertianScatter (albedo : Vec3) (rnd : RandDraw) (hit_record : HitRec) :
    Option (RayQ × Vec3) :=
  let d := hit_record.normal + rnd.unitVec
  let scatter_direction :=
    if |d.x| < 1 / 100000000 ∧ |d.y| < 1 / 100000000 ∧ |d.z| < 1 / 100000000 then
      hit_record.normal
    else d
  some (⟨hit_record.point, scatter_direction⟩, albedo)

/-- Model of `Metal::scatter` from `src/material/metal.rs`, with the random
unit vector supplied: reflect the normalized incoming direction, perturb by
`fuzz * random_on_unit_sphere`, and return the albedo unconditionally. -/
def metalScatter (sq : ℚ → ℚ) (albedo : Vec3) (fuzz : ℚ) (rnd : RandDraw)
    (ray : RayQ) (hit_record : HitRec) : Option (RayQ × Vec3) :=
  let reflected := (ray.direction.normalize sq).reflect hit_record.normal
  some (⟨hit_record.point, reflected + fuzz • rnd.unitVec⟩, albedo)

/-- Model of the free function `reflectance` (Schlick's approximation) from
`src/material/dielectric.rs`. -/
def reflectance (cosine ref_ior : ℚ) : ℚ :=
  let r0 := (1 - ref_ior) / (1 + ref_ior)
  let r0 := r0 * r0
  r0 + (1 - r0) * (1 - cosine) ^ 5

/-- Refraction ratio chosen by `Dielectric::scatter`: `ior.recip()` on a
front face, `ior` otherwise. -/
def dielectricRatio (ior : ℚ) (hit_record : HitRec) : ℚ :=
  if hit_record.front_face then ior⁻¹ else ior

/-- The `cos_theta` computed by `Dielectric::scatter`. -/
def dielectricCos (sq : ℚ → ℚ) (ray : RayQ) (hit_record : HitRec) : ℚ :=
  min (-((ray.direction.normalize sq).dot hit_record.normal)) 1

/-- The `sin_theta` computed by `Dielectric::scatter`:
`(1 - cos_theta * cos_theta).sqrt()`. -/
def dielectricSin (sq : ℚ → ℚ) (ray : RayQ) (hit_record : HitRec) : ℚ :=
  sq (1 - dielectricCos sq ray hit_record * dielectricCos sq ray hit_record)

/-- Model of `Dielectric::scatter` from `src/material/dielectric.rs`, with
the uniform draw of `rand::random()` supplied in `rnd`. -/
def dielectricScatter (sq : ℚ → ℚ) (ior : ℚ) (rnd : RandDraw) (ray : RayQ)
    (hit_record : HitRec) : Option (RayQ × Vec3) :=
  let attenuation : Vec3 := ⟨1, 1, 1⟩
  let refraction_ratio := dielectricRatio ior hit_record
  let unit_direction := ray.direction.normalize sq
  let cannot_refract := dielectricRatio ior hit_record * dielectricSin sq ray hit_record > 1
  let use_schlick := reflectance (dielectricCos sq ray hit_record) refraction_ratio > rnd.uniform
  let direction :=
    if cannot_refract ∨ use_schlick then unit_direction.reflect hit_record.normal
    else unit_direction.refract sq hit_record.normal refraction_ratio
  some (⟨hit_record.point, direction⟩, attenuation)

/-- Model of the `Material` trait dispatch over the three variants. -/
def MaterialM.scatter (sq : ℚ → ℚ) (m : MaterialM) (rnd : RandDraw) (ray : RayQ)
    (hit_record : HitRec) : Option (RayQ × Vec3) :=
  match m with
  | .lambertian albedo => lambertianScatter albedo rnd hit_record
  | .metal albedo fuzz => metalScatter sq albedo fuzz rnd ray hit_record
  | .dielectric ior => dielectricScatter sq ior rnd ray hit_record

/-- Background gradient computed by `Camera::ray_color` when nothing is hit:
`(1 - a) * (1,1,1) + a * (0.5,0.7,1.0)` with
`a = 0.5 * (unit_direction.y + 1)`. -/
def backgroundColor (sq : ℚ → ℚ) (ray : RayQ) : Vec3 :=
  let unit_direction := ray.direction.normalize sq
  let a := 1 / 2 * (unit_direction.y + 1)
  (1 - a) • (⟨1, 1, 1⟩ : Vec3) + a • (⟨1 / 2, 7 / 10, 1⟩ : Vec3)

/-- Model of `Camera::ray_color` from `src/camera.rs`.  The scene (the
generic `World: Hittable`) is a function `W` from ray and interval to an
optional hit record; `rs` is the stream of random draws, one `RandDraw` per
bounce.  Depth `0` returns black; otherwise the scene is queried on
`[0.001, ∞)`, a successful scatter recurses at `depth - 1` with the
attenuation applied componentwise, an absorbed ray returns black, and a
miss returns the background gradient. -/
def rayColor (sq : ℚ → ℚ) (W : RayQ → RangeF → Option HitRec) :
    (ℕ → RandDraw) → RayQ → ℕ → Vec3
  | _, _, 0 => Vec3.zero
  | rs, ray, depth + 1 =>
    match W ray ⟨1 / 1000, ⊤⟩ with
    | some record =>
      match record.material.scatter sq (rs 0) ray record with
      | some (scattered, attenuation) =>
        attenuation * rayColor sq W (fun n => rs (n + 1)) scattered depth
      | none => Vec3.zero
    | none => backgroundColor sq ray

/-- Model of `util::Range` from `src/util.rs` (a closed range used for
clamping). -/
structure URange where
  start : ℚ
  stop : ℚ
deriving DecidableEq

/-- Model of `util::Range::clamp`: `if value < start { start } else if
value > end { end } else { value }`. -/
def URange.clamp (r : URange) (value : ℚ) : ℚ :=
  if value < r.start then r.start
  else if r.stop < value then r.stop
  else value

/-- Model of `linear_to_gamma` from `src/vec3.rs`:
`linear_component.sqrt()`, with the square root supplied by `sq`. -/
def linear_to_gamma (sq : ℚ → ℚ) (linear_component : ℚ) : ℚ := sq linear_component

/-- Model of a Rust `as u8` cast on a nonnegative-or-arbitrary rational:
truncation toward zero with saturation into `[0, 255]`. -/
def u8cast (q : ℚ) : ℕ :=
  if q ≤ 0 then 0 else min q.floor.toNat 255

/-- Model of `Color::write_ppm` from `src/vec3.rs`: the single output line
`"r g b"` is modelled by the triple of emitted integers.  Each channel is
scaled by `1/samples_per_pixel`, gamma corrected, clamped to the static
`INTENSITY` range `[0, 0.999]`, multiplied by `256` and cast to `u8`. -/
def write_ppm (sq : ℚ → ℚ) (c : Vec3) (samples_per_pixel : ℕ+) : ℕ × ℕ × ℕ :=
  let scale : ℚ := ((samples_per_pixel : ℕ) : ℚ)⁻¹
  let r := linear_to_gamma sq (c.x * scale)
  let g := linear_to_gamma sq (c.y * scale)
  let b := linear_to_gamma sq (c.z * scale)
  let INTENSITY : URange := ⟨0, 999 / 1000⟩
  (u8cast (256 * INTENSITY.clamp r),
   u8cast (256 * INTENSITY.clamp g),
   u8cast (256 * INTENSITY.clamp b))

/-- Model of `NonZeroU64::new` / `NonZeroU32::new`: `None` on zero. -/
def nonZeroNew (n : ℕ) : Option ℕ+ :=
  if h : 0 < n then some ⟨n, h⟩ else none

/-- Model of a Rust `f32 as u64` cast: truncation toward zero saturating
into `[0, u64::MAX]`; negative values (and, in the source, `NaN`) go to 0. -/
def u64cast (q : ℚ) : ℕ :=
  if q ≤ 0 then 0 else min q.floor.toNat (2 ^ 64 - 1)

/-- Model of `CameraBuilder` from `src/camera.rs`.  The `Option<NonZeroU32>`
and `Option<NonZeroU64>` fields are `Option ℕ+`; the geometric `f32` fields
are `Option ℚ`. -/
structure CameraBuilderQ where
  aspect_ratio : Option ℚ := none
  samples_per_pixel : Option ℕ+ := none
  image_width : Option ℕ+ := none
  max_depth : Option ℕ+ := none
  vfov : Option ℚ := none
  look_from : Option Vec3 := none
  look_at : Option Vec3 := none
  up : Option Vec3 := none
  defocus_angle : Option ℚ := none
  focus_dist : Option ℚ := none
deriving DecidableEq

/-- Model of the `Camera` configuration fields relevant to construction and
the sampling loop (`src/camera.rs`).  The trigonometry-derived viewport
basis vectors play no part in any claim and are not carried. -/
structure CameraQ where
  samples_per_pixel : ℕ+
  image_width : ℕ+
  image_height : ℕ+
  center : Vec3
  max_depth : ℕ+
  defocus_angle : ℚ
deriving DecidableEq

namespace CameraBuilderQ

/-- Model of `CameraBuilder::with_aspect_ratio`. -/
def with_aspect_ratio (b : CameraBuilderQ) (aspect_ratio : ℚ) : CameraBuilderQ :=
  { b with aspect_ratio := some aspect_ratio }

/-- Model of `CameraBuilder::with_image_width`:
`self.image_width = NonZeroU64::new(image_width)`, so a zero width leaves
the field `None`. -/
def with_image_width (b : CameraBuilderQ) (image_width : ℕ) : CameraBuilderQ :=
  { b with image_width := nonZeroNew image_width }

/-- Model of `CameraBuilder::with_samples_per_pixel`:
`self.samples_per_pixel = NonZeroU32::new(samples_per_pixel)`. -/
def with_samples_per_pixel (b : CameraBuilderQ) (samples_per_pixel : ℕ) :
    CameraBuilderQ :=
  { b with samples_per_pixel := nonZeroNew samples_per_pixel }

/-- Model of `CameraBuilder::with_recursion_depth`:
`self.max_depth = NonZeroU32::new(depth)`. -/
def with_recursion_depth (b : CameraBuilderQ) (depth : ℕ) : CameraBuilderQ :=
  { b with max_depth := nonZeroNew depth }

/-- The image height computed by `From<CameraBuilder> for Camera`:
`((image_width as f32 / aspect_ratio) as u64).max(1)`. -/
def imageHeightNat (b : CameraBuilderQ) : ℕ :=
  let aspect_ratio := b.aspect_ratio.getD 1
  let image_width := b.image_width.getD 100
  max (u64cast (((image_width : ℕ) : ℚ) / aspect_ratio)) 1

/-- Model of `From<CameraBuilder> for Camera` from `src/camera.rs`.  Unset
fields fall back to their defaults (`aspect_ratio` 1, `samples_per_pixel`
10, `max_depth` 10, `image_width` 100, ...); the
`NonZeroU64::new(height).expect(..)` is modelled by returning `none` when
the `expect` would panic. -/
def build (b : CameraBuilderQ) : Option CameraQ :=
  let samples_per_pixel := b.samples_per_pixel.getD 10
  let max_depth := b.max_depth.getD 10
  let image_width := b.image_width.getD 100
  let look_from := b.look_from.getD ⟨0, 0, -1⟩
  let defocus_angle := b.defocus_angle.getD 0
  match nonZeroNew b.imageHeightNat with
  | none => none
  | some image_height =>
    some { samples_per_pixel := samples_per_pixel, image_width := image_width,
           image_height := image_height, center := look_from,
           max_depth := max_depth, defocus_angle := defocus_angle }

end CameraBuilderQ

/-- Concrete hit records, member lists and interval used by the closed
witness instances. -/
def demoMat : MaterialM := .lambertian ⟨0, 0, 0⟩

def demoRecA : HitRec := ⟨⟨0, 0, 3⟩, ⟨0, 1, 0⟩, demoMat, 3, true⟩

def demoRecB : HitRec := ⟨⟨0, 0, 1⟩, ⟨0, 1, 0⟩, demoMat, 1, true⟩

def demoRecC : HitRec := ⟨⟨0, 0, 5⟩, ⟨0, 1, 0⟩, demoMat, 5, false⟩

def demoObjs : List (List HitRec) := [[demoRecA], [demoRecB, demoRecC]]

def demoObjs2 : List (List HitRec) := [[demoRecB, demoRecC], [demoRecA]]

def demoI : RangeF := ⟨0, ⊤⟩

def demoSphere : SphereQ := ⟨⟨0, 0, 0⟩, 2, demoMat⟩

def demoRay : RayQ := ⟨⟨0, 0, 0⟩, ⟨1, 0, 0⟩⟩

def demoI2 : RangeF := ⟨1 / 1000, ⊤⟩

/-- A constant model of `f32::sqrt` returning `2`, exact for input `4`. -/
def sqTwo : ℚ → ℚ := fun _ => 2

/-- A constant model of `f32::sqrt` returning `1`, exact for input `1`. -/
def sqOne : ℚ → ℚ := fun _ => 1

/-- A constant stream of random draws for the closed witnesses. -/
def rs0 : ℕ → RandDraw := fun _ => ⟨⟨0, 0, 0⟩, 0⟩

def recC4 : HitRec := ⟨⟨0, 0, 0⟩, ⟨0, -1, 0⟩, demoMat, 1, false⟩

def rayC4 : RayQ := ⟨⟨0, 0, 0⟩, ⟨3 / 5, 4 / 5, 0⟩⟩

/-- A model of `f32::sqrt` exact at the two inputs the C4 witness uses
(`1` and `9/25`). -/
def sqC4 : ℚ → ℚ := fun q => if q = 9 / 25 then 3 / 5 else 1

def demoRec2 : HitRec := ⟨⟨2, 0, 0⟩, ⟨-1, 0, 0⟩, demoMat, 2, false⟩

def tangentSphere : SphereQ := ⟨⟨0, 0, 0⟩, 1, demoMat⟩

def tangentRay : RayQ := ⟨⟨-2, 1, 0⟩, ⟨1, 0, 0⟩⟩

def tangentRec : HitRec := ⟨⟨0, 1, 0⟩, ⟨0, -1, 0⟩, demoMat, 2, false⟩

/-- A constant model of `f32::sqrt` returning `0`, exact for input `0`. -/
def sqZero : ℚ → ℚ := fun _ => 0

/-- A constant model of `f32::sqrt` returning `1/2`, exact for input `1/4`
(matching `f32`, where `0.25_f32.sqrt() == 0.5` exactly). -/
def sqHalf : ℚ → ℚ := fun _ => 1 / 2

/-- A constant model of `f32::sqrt` returning `1/4`, exact for input `1/16`. -/
def sqQuarter : ℚ → ℚ := fun _ => 1 / 4

def recC9 : HitRec := ⟨⟨0, 0, 0⟩, ⟨0, 1, 0⟩, demoMat, 1, true⟩

def rayC9 : RayQ := ⟨⟨0, 1, 0⟩, ⟨0, -1, 0⟩⟩

def rndC9 : RandDraw := ⟨⟨0, -2, 0⟩, 0⟩

/-!  Lemmas characterizing the contract model and the `HittableList` fold. -/

theorem minByT_eq_none_iff (l : List HitRec) : minByT l = none ↔ l = [] := by
  cases l with
  | nil => simp [minByT]
  | cons h hs =>
    simp only [minByT]
    cases minByT hs <;> simp

theorem minByT_mem (l : List HitRec) (m : HitRec) (hm : minByT l = some m) : m ∈ l := by
  induction l with
  | nil => simp [minByT] at hm
  | cons h hs ih =>
    simp only [minByT] at hm
    cases hmin : minByT hs with
    | none => rw [hmin] at hm; simp at hm; simp [hm]
    | some m2 =>
      rw [hmin] at hm
      simp at hm
      by_cases hle : h.t ≤ m2.t
      · rw [if_pos hle] at hm; simp [← hm]
      · rw [if_neg hle] at hm
        exact List.mem_cons_of_mem h (ih (hm ▸ hmin))

theorem minByT_le (l : List HitRec) :
    ∀ m : HitRec, minByT l = some m → ∀ h ∈ l, m.t ≤ h.t := by
  induction l with
  | nil => intro m hm; simp [minByT] at hm
  | cons h hs ih =>
    intro m hm g hg
    simp only [minByT] at hm
    cases hmin : minByT hs with
    | none =>
      rw [hmin] at hm; simp at hm
      rcases List.mem_cons.mp hg with hgh | hgs
      · simp [← hm, hgh]
      · exact absurd hgs (by simp [(minByT_eq_none_iff hs).mp hmin])
    | some m2 =>
      rw [hmin] at hm; simp at hm
      have h2 := ih m2 hmin
      rcases List.mem_cons.mp hg with hgh | hgs
      · subst hgh
        by_cases hle : g.t ≤ m2.t
        · rw [if_pos hle] at hm; rw [← hm]
        · rw [if_neg hle] at hm; rw [← hm]; exact le_of_not_le hle
      · by_cases hle : h.t ≤ m2.t
        · rw [if_pos hle] at hm; rw [← hm]; exact le_trans hle (h2 g hgs)
        · rw [if_neg hle] at hm; rw [← hm]; exact h2 g hgs

theorem objHit_some (o : List HitRec) (I : RangeF) (r : HitRec)
    (hr : objHit o I = some r) :
    r ∈ o ∧ I.contains r.t ∧ ∀ h ∈ o, I.contains h.t → r.t ≤ h.t := by
  have hmem := minByT_mem _ _ hr
  have hle := minByT_le _ _ hr
  rw [List.mem_filter] at hmem
  refine ⟨hmem.1, by simpa using hmem.2, ?_⟩
  intro h hh hc
  exact hle h (List.mem_filter.mpr ⟨hh, by simpa using hc⟩)

theorem objHit_eq_none_iff (o : List HitRec) (I : RangeF) :
    objHit o I = none ↔ ∀ h ∈ o, ¬ I.contains h.t := by
  rw [objHit, minByT_eq_none_iff, List.filter_eq_nil_iff]
  simp

/-- Invariant-carrying specification of the `HittableList::hit` loop: given
an entry state whose narrowed end `closest` and best record `rec` are
consistent with the original interval `⟨start, E⟩`, the loop returns `none`
exactly when it entered with nothing and no member candidate lies in the
original interval, and any returned record lies in the original interval
and realizes the minimum `t` over all member candidates in it. -/
theorem listHitAux_spec (start : ℚ) (E : WithTop ℚ) (objs : List (List HitRec)) :
    ∀ (closest : WithTop ℚ) (rec : Option HitRec),
    (rec = none → closest = E) →
    (∀ r0 : HitRec, rec = some r0 →
        closest = (r0.t : WithTop ℚ) ∧ RangeF.contains ⟨start, E⟩ r0.t) →
    ((listHitAux start objs closest rec = none →
        rec = none ∧
          ∀ h : HitRec, (∃ o ∈ objs, h ∈ o) → ¬ RangeF.contains ⟨start, E⟩ h.t) ∧
     (∀ r : HitRec, listHitAux start objs closest rec = some r →
        RangeF.contains ⟨start, E⟩ r.t ∧
        ((∃ o ∈ objs, r ∈ o) ∨ rec = some r) ∧
        (∀ h : HitRec, (∃ o ∈ objs, h ∈ o) →
            RangeF.contains ⟨start, E⟩ h.t → r.t ≤ h.t) ∧
        (∀ r0 : HitRec, rec = some r0 → r.t ≤ r0.t))) := by
  induction objs with
  | nil =>
    intro closest rec hnone hsome
    constructor
    · intro h0
      simp only [listHitAux] at h0
      exact ⟨h0, by rintro h ⟨o, ho, _⟩; simp at ho⟩
    · intro r hr
      simp only [listHitAux] at hr
      refine ⟨(hsome r hr).2, Or.inr hr, ?_, ?_⟩
      · rintro h ⟨o, ho, _⟩; simp at ho
      · intro r0 hr0; rw [hr0] at hr; simp at hr; rw [hr]
  | cons o rest ih =>
    intro closest rec hnone hsome
    have hclosE : closest ≤ E := by
      cases rec with
      | none => exact le_of_eq (hnone rfl)
      | some r0 =>
        rcases hsome r0 rfl with ⟨hc, _, hlt⟩
        exact hc ▸ le_of_lt hlt
    cases hobj : objHit o ⟨start, closest⟩ with
    | some r1 =>
      rcases objHit_some o ⟨start, closest⟩ r1 hobj with ⟨hr1mem, ⟨hr1s, hr1lt⟩, hr1min⟩
      have hr1E : RangeF.contains ⟨start, E⟩ r1.t := ⟨hr1s, lt_of_lt_of_le hr1lt hclosE⟩
      have step : listHitAux start (o :: rest) closest rec =
          listHitAux start rest (r1.t : ℚ) (some r1) := by
        simp only [listHitAux, hobj]
      have ihspec := ih (r1.t : ℚ) (some r1) (by intro h0; simp at h0)
        (by intro r0 hr0; simp at hr0; subst hr0; exact ⟨rfl, hr1E⟩)
      constructor
      · intro h0
        rw [step] at h0
        rcases (ihspec.1 h0).1 with h1
        simp at h1
      · intro r hr
        rw [step] at hr
        rcases ihspec.2 r hr with ⟨hcont, hmem, hmin, hbest⟩
        have hrt_le_r1 : r.t ≤ r1.t := hbest r1 rfl
        refine ⟨hcont, ?_, ?_, ?_⟩
        · rcases hmem with ⟨o2, ho2, hro2⟩ | hrec
          · exact Or.inl ⟨o2, List.mem_cons_of_mem o ho2, hro2⟩
          · simp at hrec
            exact Or.inl ⟨o, List.mem_cons_self o rest, hrec ▸ hr1mem⟩
        · rintro h ⟨o2, ho2, hho2⟩ hhE
          rcases List.mem_cons.mp ho2 with ho2o | ho2rest
          · subst ho2o
            by_cases hht : (h.t : WithTop ℚ) < closest
            · exact le_trans hrt_le_r1 (hr1min h hho2 ⟨hhE.1, hht⟩)
            · have : closest ≤ (h.t : WithTop ℚ) := le_of_not_lt hht
              have h1h : (r1.t : WithTop ℚ) < (h.t : WithTop ℚ) :=
                lt_of_lt_of_le hr1lt this
              exact le_trans hrt_le_r1 (le_of_lt (WithTop.coe_lt_coe.mp h1h))
          · exact hmin h ⟨o2, ho2rest, hho2⟩ hhE
        · intro r0 hr0
          rcases hsome r0 hr0 with ⟨hc, _⟩
          have : (r1.t : WithTop ℚ) < (r0.t : WithTop ℚ) := hc ▸ hr1lt
          exact le_trans hrt_le_r1 (le_of_lt (WithTop.coe_lt_coe.mp this))
    | none =>
      have hnohit := (objHit_eq_none_iff o ⟨start, closest⟩).mp hobj
      have step : listHitAux start (o :: rest) closest rec =
          listHitAux start rest closest rec := by
        simp only [listHitAux, hobj]
      have ihspec := ih closest rec hnone hsome
      constructor
      · intro h0
        rw [step] at h0
        rcases ihspec.1 h0 with ⟨hrec, hempty⟩
        refine ⟨hrec, ?_⟩
        rintro h ⟨o2, ho2, hho2⟩ hhE
        rcases List.mem_cons.mp ho2 with ho2o | ho2rest
        · subst ho2o
          exact hnohit h hho2 (by rw [hnone hrec]; exact hhE)
        · exact hempty h ⟨o2, ho2rest, hho2⟩ hhE
      · intro r hr
        rw [step] at hr
        rcases ihspec.2 r hr with ⟨hcont, hmem, hmin, hbest⟩
        refine ⟨hcont, ?_, ?_, hbest⟩
        · rcases hmem with ⟨o2, ho2, hro2⟩ | hrec
          · exact Or.inl ⟨o2, List.mem_cons_of_mem o ho2, hro2⟩
          · exact Or.inr hrec
        · rintro h ⟨o2, ho2, hho2⟩ hhE
          rcases List.mem_cons.mp ho2 with ho2o | ho2rest
          · subst ho2o
            have hnc := hnohit h hho2
            have hclos_le : closest ≤ (h.t : WithTop ℚ) := by
              by_contra hcl
              exact hnc ⟨hhE.1, lt_of_not_le hcl⟩
            cases hrec0 : rec with
            | none =>
              exfalso
              rw [hnone hrec0] at hclos_le
              exact absurd hhE.2 (not_lt_of_le hclos_le)
            | some r0 =>
              rcases hsome r0 hrec0 with ⟨hc, _⟩
              rw [hc] at hclos_le
              exact le_trans (hbest r0 hrec0) (WithTop.coe_le_coe.mp hclos_le)
          · exact hmin h ⟨o2, ho2rest, hho2⟩ hhE

/-- Top-level characterization of `HittableList::hit` over the original
interval. -/
theorem listHit_spec (objs : List (List HitRec)) (I : RangeF) :
    (listHit objs I = none ↔
        ∀ h : HitRec, (∃ o ∈ objs, h ∈ o) → ¬ I.contains h.t) ∧
    (∀ r : HitRec, listHit objs I = some r →
        I.contains r.t ∧ (∃ o ∈ objs, r ∈ o) ∧
        ∀ h : HitRec, (∃ o ∈ objs, h ∈ o) → I.contains h.t → r.t ≤ h.t) := by
  have hI : I = ⟨I.start, I.stop⟩ := rfl
  have spec := listHitAux_spec I.start I.stop objs I.stop none
    (fun _ => rfl) (by intro r0 h0; simp at h0)
  constructor
  · constructor
    · intro h0
      rw [hI]
      exact (spec.1 h0).2
    · intro hall
      cases hout : listHit objs I with
      | none => rfl
      | some r =>
        rcases spec.2 r hout with ⟨hcont, hmem, _⟩
        rcases hmem with hmem | hmem
        · exact absurd (hI ▸ hcont) (hall r hmem)
        · simp at hmem
  · intro r hr
    rcases spec.2 r hr with ⟨hcont, hmem, hmin, _⟩
    rcases hmem with hmem | hmem
    · exact ⟨hI ▸ hcont, hmem, fun h hh hc => hmin h hh (hI ▸ hc)⟩
    · simp at hmem

/-- The `t` of the record returned by `HittableList::hit` is invariant under
permuting the member list. -/
theorem listHit_perm_t (objs objs2 : List (List HitRec)) (I : RangeF)
    (hp : objs.Perm objs2) :
    Option.map HitRec.t (listHit objs I) = Option.map HitRec.t (listHit objs2 I) := by
  have hmem : ∀ h : HitRec, (∃ o ∈ objs, h ∈ o) ↔ (∃ o ∈ objs2, h ∈ o) := by
    intro h
    constructor
    · rintro ⟨o, ho, hh⟩; exact ⟨o, hp.mem_iff.mp ho, hh⟩
    · rintro ⟨o, ho, hh⟩; exact ⟨o, hp.mem_iff.mpr ho, hh⟩
  rcases listHit_spec objs I with ⟨hnone1, hsome1⟩
  rcases listHit_spec objs2 I with ⟨hnone2, hsome2⟩
  cases h1 : listHit objs I with
  | none =>
    cases h2 : listHit objs2 I with
    | none => rfl
    | some r2 =>
      rcases hsome2 r2 h2 with ⟨hc2, hm2, _⟩
      exact absurd hc2 (hnone1.mp h1 r2 ((hmem r2).mpr hm2))
  | some r =>
    cases h2 : listHit objs2 I with
    | none =>
      rcases hsome1 r h1 with ⟨hc1, hm1, _⟩
      exact absurd hc1 (hnone2.mp h2 r ((hmem r).mp hm1))
    | some r2 =>
      rcases hsome1 r h1 with ⟨hc1, hm1, hmin1⟩
      rcases hsome2 r2 h2 with ⟨hc2, hm2, hmin2⟩
      have hle1 : r.t ≤ r2.t := hmin1 r2 ((hmem r2).mpr hm2) hc2
      have hle2 : r2.t ≤ r.t := hmin2 r ((hmem r).mp hm1) hc1
      simp [le_antisymm hle1 hle2]

/-- The `t` stored by the record `Sphere::hit` builds is the accepted root. -/
theorem SphereQ.mkRec_t (s : SphereQ) (r : RayQ) (root : ℚ) :
    (s.mkRec r root).t = root := rfl

/-- On a nonnegative discriminant, `Sphere::hit` agrees with the
contract model `objHit` on its two candidate roots: it returns the nearest
root the interval contains. -/
theorem SphereQ.hit_eq_objHit (sq : ℚ → ℚ) (s : SphereQ) (r : RayQ) (I : RangeF)
    (hd : ¬ s.disc r < 0) (h12 : s.root1 sq r ≤ s.root2 sq r) :
    s.hit sq r I = objHit [s.mkRec r (s.root1 sq r), s.mkRec r (s.root2 sq r)] I := by
  by_cases h1 : I.contains (s.root1 sq r) <;> by_cases h2 : I.contains (s.root2 sq r) <;>
    simp [SphereQ.hit, objHit, minByT, hd, h1, h2, SphereQ.mkRec_t, h12]

/-- C1: for every ray (implicit in the candidate lists), parameter interval
and finite collection of contract-abiding members of a `HittableList`,
`HittableList::hit` returns a record iff some member reports an
intersection inside the original interval; the returned record lies in the
original interval and its `t` is minimal among all members' intersections
there; and the returned `t` is independent of the order in which the
members were added. -/
theorem hittableList_hit_globally_nearest
    (objs objs2 : List (List HitRec)) (I : RangeF) (hp : objs.Perm objs2) :
    ((listHit objs I).isSome ↔ ∃ o ∈ objs, (objHit o I).isSome) ∧
    (∀ r : HitRec, listHit objs I = some r →
        I.contains r.t ∧ (∃ o ∈ objs, r ∈ o) ∧
        ∀ h : HitRec, (∃ o ∈ objs, h ∈ o) → I.contains h.t → r.t ≤ h.t) ∧
    Option.map HitRec.t (listHit objs I) = Option.map HitRec.t (listHit objs2 I) := by
  refine ⟨?_, (listHit_spec objs I).2, listHit_perm_t objs objs2 I hp⟩
  have hobj : ∀ o : List HitRec, (objHit o I).isSome ↔ ∃ h ∈ o, I.contains h.t := by
    intro o
    rw [Option.isSome_iff_ne_none, Ne, objHit_eq_none_iff]
    push_neg
    simp
  rw [Option.isSome_iff_ne_none, Ne, (listHit_spec objs I).1]
  push_neg
  constructor
  · rintro ⟨h, ⟨o, ho, hh⟩, hc⟩
    exact ⟨o, ho, (hobj o).mpr ⟨h, hh, hc⟩⟩
  · rintro ⟨o, ho, hs⟩
    rcases (hobj o).mp hs with ⟨h, hh, hc⟩
    exact ⟨h, ⟨o, ho, hh⟩, hc⟩

/-- Witness for C1 at a concrete two-member list and its swap: the nearest
`t` is `1` from the second member, independent of insertion order. -/
theorem hittableList_hit_globally_nearest_witness :
    listHit demoObjs demoI = some demoRecB ∧
    Option.map HitRec.t (listHit demoObjs demoI) =
      Option.map HitRec.t (listHit demoObjs2 demoI) :=
  ⟨by decide,
   (hittableList_hit_globally_nearest demoObjs demoObjs2 demoI (by decide)).2.2⟩

/-- C2: `Sphere::hit` returns `None` on a negative discriminant; otherwise
it tries the smaller root `(-half_b - √disc)/a` first and then the larger,
returns the record of the first root the interval contains, and `None` when
neither is contained; and for a ray starting inside the sphere (with
outward-pointing direction) only the larger root can be accepted. -/
theorem sphere_hit_root_selection (sq : ℚ → ℚ) (s : SphereQ) (r : RayQ) (I : RangeF) :
    (s.disc r < 0 → s.hit sq r I = none) ∧
    (s.hit sq r I = none ↔
        s.disc r < 0 ∨
          (¬ I.contains (s.root1 sq r) ∧ ¬ I.contains (s.root2 sq r))) ∧
    (∀ rec : HitRec, s.hit sq r I = some rec →
        (I.contains (s.root1 sq r) ∧ rec = s.mkRec r (s.root1 sq r)) ∨
        (¬ I.contains (s.root1 sq r) ∧ I.contains (s.root2 sq r) ∧
            rec = s.mkRec r (s.root2 sq r))) ∧
    (0 ≤ sq (s.disc r) → 0 < r.direction.len_squared →
        s.root1 sq r ≤ s.root2 sq r) ∧
    (IsSqrt (s.disc r) (sq (s.disc r)) → 0 < r.direction.len_squared →
        (r.origin - s.center).len_squared < s.radius * s.radius →
        0 ≤ (r.origin - s.center).dot r.direction → 0 ≤ I.start →
        ∀ rec : HitRec, s.hit sq r I = some rec → rec.t = s.root2 sq r) := by
  refine ⟨?_, ?_, ?_, ?_, ?_⟩
  · intro hd; simp [SphereQ.hit, hd]
  · by_cases hd : s.disc r < 0 <;> by_cases h1 : I.contains (s.root1 sq r) <;>
      by_cases h2 : I.contains (s.root2 sq r) <;> simp [SphereQ.hit, hd, h1, h2]
  · intro rec hrec
    by_cases hd : s.disc r < 0 <;> by_cases h1 : I.contains (s.root1 sq r) <;>
      by_cases h2 : I.contains (s.root2 sq r) <;>
      simp [SphereQ.hit, hd, h1, h2] at hrec <;> simp [hd, h1, h2, hrec]
  · intro hs ha
    have hnum : -((r.origin - s.center).dot r.direction) - sq (s.disc r) ≤
        -((r.origin - s.center).dot r.direction) + sq (s.disc r) := by linarith
    exact mul_le_mul_of_nonneg_right hnum (le_of_lt (inv_pos.mpr ha))
  · rintro ⟨hs0, hs2⟩ ha hin hout hstart rec hrec
    set hb := (r.origin - s.center).dot r.direction with hhb
    have hc : (r.origin - s.center).len_squared - s.radius * s.radius < 0 := by
      linarith
    have hdisc : hb * hb < s.disc r := by
      have : 0 < r.direction.len_squared *
          (s.radius * s.radius - (r.origin - s.center).len_squared) := by
        apply mul_pos ha; linarith
      simp only [SphereQ.disc]
      nlinarith
    have habs : |hb| < sq (s.disc r) := by
      have h2 : sq (s.disc r) ^ 2 = s.disc r := by rw [pow_two]; exact hs2
      have hsq : |hb| ^ 2 < sq (s.disc r) ^ 2 := by
        rw [sq_abs, h2, pow_two]; exact hdisc
      exact lt_of_pow_lt_pow_left₀ 2 hs0 hsq
    have hroot1 : s.root1 sq r < 0 := by
      have hnum : -hb - sq (s.disc r) < 0 := by
        have := neg_abs_le hb
        have := neg_le_abs hb
        linarith [abs_nonneg hb]
      exact mul_neg_of_neg_of_pos hnum (inv_pos.mpr ha)
    have hnc1 : ¬ I.contains (s.root1 sq r) := by
      rintro ⟨hc1, _⟩
      exact absurd (le_trans hstart hc1) (not_le_of_lt hroot1)
    have hcase : (I.contains (s.root1 sq r) ∧ rec = s.mkRec r (s.root1 sq r)) ∨
        (¬ I.contains (s.root1 sq r) ∧ I.contains (s.root2 sq r) ∧
            rec = s.mkRec r (s.root2 sq r)) := by
      by_cases hd : s.disc r < 0 <;> by_cases h1 : I.contains (s.root1 sq r) <;>
        by_cases h2 : I.contains (s.root2 sq r) <;>
        simp [SphereQ.hit, hd, h1, h2] at hrec <;> simp [h1, h2, hrec]
    rcases hcase with h | h
    · exact absurd h.1 hnc1
    · rw [h.2.2, SphereQ.mkRec_t]

/-- Componentwise evaluation lemmas for the `Vec3` operations, used to let
`simp`/`norm_num` evaluate the models on concrete inputs. -/
@[simp] theorem Vec3.add_x (a b : Vec3) : (a + b).x = a.x + b.x := rfl

@[simp] theorem Vec3.add_y (a b : Vec3) : (a + b).y = a.y + b.y := rfl

@[simp] theorem Vec3.add_z (a b : Vec3) : (a + b).z = a.z + b.z := rfl

@[simp] theorem Vec3.neg_x (a : Vec3) : (-a).x = -a.x := rfl

@[simp] theorem Vec3.neg_y (a : Vec3) : (-a).y = -a.y := rfl

@[simp] theorem Vec3.neg_z (a : Vec3) : (-a).z = -a.z := rfl

@[simp] theorem Vec3.sub_x (a b : Vec3) : (a - b).x = a.x - b.x := by
  show a.x + -b.x = a.x - b.x; ring

@[simp] theorem Vec3.sub_y (a b : Vec3) : (a - b).y = a.y - b.y := by
  show a.y + -b.y = a.y - b.y; ring

@[simp] theorem Vec3.sub_z (a b : Vec3) : (a - b).z = a.z - b.z := by
  show a.z + -b.z = a.z - b.z; ring

@[simp] theorem Vec3.smul_x (k : ℚ) (a : Vec3) : (k • a).x = k * a.x := rfl

@[simp] theorem Vec3.smul_y (k : ℚ) (a : Vec3) : (k • a).y = k * a.y := rfl

@[simp] theorem Vec3.smul_z (k : ℚ) (a : Vec3) : (k • a).z = k * a.z := rfl

@[simp] theorem Vec3.hmul_x (a b : Vec3) : (a * b).x = a.x * b.x := rfl

@[simp] theorem Vec3.hmul_y (a b : Vec3) : (a * b).y = a.y * b.y := rfl

@[simp] theorem Vec3.hmul_z (a b : Vec3) : (a * b).z = a.z * b.z := rfl

/-- Extensionality for `Vec3`. -/
theorem Vec3.ext3 (a b : Vec3) (hx : a.x = b.x) (hy : a.y = b.y)
    (hz : a.z = b.z) : a = b := by
  cases a; cases b; simp_all

@[simp] theorem Vec3.add_mk (a b c d e f : ℚ) :
    Vec3.mk a b c + Vec3.mk d e f = Vec3.mk (a + d) (b + e) (c + f) := rfl

@[simp] theorem Vec3.neg_mk (a b c : ℚ) :
    -(Vec3.mk a b c) = Vec3.mk (-a) (-b) (-c) := rfl

@[simp] theorem Vec3.sub_mk (a b c d e f : ℚ) :
    Vec3.mk a b c - Vec3.mk d e f = Vec3.mk (a - d) (b - e) (c - f) := by
  apply Vec3.ext3 <;> simp [Vec3.sub_x, Vec3.sub_y, Vec3.sub_z]

@[simp] theorem Vec3.smul_mk (k a b c : ℚ) :
    k • Vec3.mk a b c = Vec3.mk (k * a) (k * b) (k * c) := rfl

@[simp] theorem Vec3.hmul_mk (a b c d e f : ℚ) :
    Vec3.mk a b c * Vec3.mk d e f = Vec3.mk (a * d) (b * e) (c * f) := rfl

@[simp] theorem Vec3.mk_x (a b c : ℚ) : (Vec3.mk a b c).x = a := rfl

@[simp] theorem Vec3.mk_y (a b c : ℚ) : (Vec3.mk a b c).y = b := rfl

@[simp] theorem Vec3.mk_z (a b c : ℚ) : (Vec3.mk a b c).z = c := rfl

/-- Witness for C2: a ray starting at the center of a radius-2 sphere
accepts only the far root `t = 2`. -/
theorem sphere_hit_root_selection_witness :
    (demoSphere.hit sqTwo demoRay demoI2).map HitRec.t =
      some (demoSphere.root2 sqTwo demoRay) := by
  have hhit : demoSphere.hit sqTwo demoRay demoI2 =
      some (demoSphere.mkRec demoRay (demoSphere.root2 sqTwo demoRay)) := by
    norm_num [SphereQ.hit, SphereQ.disc, SphereQ.root1, SphereQ.root2, demoSphere,
      demoRay, demoI2, sqTwo, RangeF.contains, Vec3.len_squared, Vec3.dot]
  have h5 := (sphere_hit_root_selection sqTwo demoSphere demoRay demoI2).2.2.2.2
    (by constructor <;>
      norm_num [SphereQ.disc, demoSphere, demoRay, sqTwo, Vec3.len_squared, Vec3.dot])
    (by norm_num [demoRay, Vec3.len_squared, Vec3.dot])
    (by norm_num [demoSphere, demoRay, Vec3.len_squared, Vec3.dot])
    (by norm_num [demoSphere, demoRay, Vec3.dot])
    (by norm_num [demoI2])
  rw [hhit]
  simp [h5 _ hhit]

/-- C3: `Camera::ray_color` returns black at depth `0`; at positive depth it
queries the scene on `[0.001, ∞)`; on a hit whose scatter succeeds it
returns the attenuation times the recursive color of the scattered ray at
`depth - 1`; on an absorbed scatter it returns black; on a miss it returns
the white-to-sky-blue vertical gradient; and for a `HittableList` scene the
record it shades with is the nearest member intersection in `[0.001, ∞)`. -/
theorem ray_color_cases (sq : ℚ → ℚ) (W : RayQ → RangeF → Option HitRec)
    (rs : ℕ → RandDraw) (ray : RayQ) :
    rayColor sq W rs ray 0 = Vec3.zero ∧
    (∀ (depth : ℕ) (rec : HitRec), W ray ⟨1 / 1000, ⊤⟩ = some rec →
      (∀ (scattered : RayQ) (attenuation : Vec3),
          rec.material.scatter sq (rs 0) ray rec = some (scattered, attenuation) →
          rayColor sq W rs ray (depth + 1) =
            attenuation * rayColor sq W (fun n => rs (n + 1)) scattered depth) ∧
      (rec.material.scatter sq (rs 0) ray rec = none →
          rayColor sq W rs ray (depth + 1) = Vec3.zero)) ∧
    (W ray ⟨1 / 1000, ⊤⟩ = none → ∀ depth : ℕ,
        rayColor sq W rs ray (depth + 1) = backgroundColor sq ray) ∧
    (backgroundColor sq ray =
      (1 - 1 / 2 * ((ray.direction.normalize sq).y + 1)) • (⟨1, 1, 1⟩ : Vec3) +
        (1 / 2 * ((ray.direction.normalize sq).y + 1)) • (⟨1 / 2, 7 / 10, 1⟩ : Vec3)) ∧
    (∀ (objs : List (List HitRec)) (rec : HitRec),
        listHit objs ⟨1 / 1000, ⊤⟩ = some rec →
        RangeF.contains ⟨1 / 1000, ⊤⟩ rec.t ∧
        ∀ h : HitRec, (∃ o ∈ objs, h ∈ o) →
          RangeF.contains ⟨1 / 1000, ⊤⟩ h.t → rec.t ≤ h.t) := by
  refine ⟨rfl, ?_, ?_, rfl, ?_⟩
  · intro depth rec hW
    constructor
    · intro scattered attenuation hscatter
      simp only [rayColor, hW, hscatter]
    · intro hscatter
      simp only [rayColor, hW, hscatter]
  · intro hW depth
    simp only [rayColor, hW]
  · intro objs rec hrec
    rcases (listHit_spec objs ⟨1 / 1000, ⊤⟩).2 rec hrec with ⟨hc, _, hmin⟩
    exact ⟨hc, hmin⟩

/-- Witness for C3: in an empty scene a depth-1 trace returns the gradient,
and a depth-0 trace returns black. -/
theorem ray_color_cases_witness :
    rayColor sqOne (fun _ _ => none) rs0 demoRay 1 = backgroundColor sqOne demoRay ∧
    rayColor sqOne (fun _ _ => none) rs0 demoRay 0 = Vec3.zero :=
  ⟨(ray_color_cases sqOne (fun _ _ => none) rs0 demoRay).2.2.1 rfl 0,
   (ray_color_cases sqOne (fun _ _ => none) rs0 demoRay).1⟩

/-- C4: `Dielectric::scatter` always returns `Some` with attenuation exactly
`(1,1,1)`; the scattered direction is exactly one of the mirror reflection
or the refraction of the normalized incoming direction; and under total
internal reflection (`refraction_ratio * sin_theta > 1`) it is the mirror
reflection for every value of the uniform random draw. -/
theorem dielectric_scatter_spec (sq : ℚ → ℚ) (ior : ℚ) (rnd : RandDraw)
    (ray : RayQ) (rec : HitRec) :
    (dielectricScatter sq ior rnd ray rec =
      some (⟨rec.point,
        if dielectricRatio ior rec * dielectricSin sq ray rec > 1 ∨
            reflectance (dielectricCos sq ray rec) (dielectricRatio ior rec) >
              rnd.uniform
        then (ray.direction.normalize sq).reflect rec.normal
        else (ray.direction.normalize sq).refract sq rec.normal
          (dielectricRatio ior rec)⟩, ⟨1, 1, 1⟩)) ∧
    (∀ (r2 : RayQ) (att : Vec3),
        dielectricScatter sq ior rnd ray rec = some (r2, att) →
        att = ⟨1, 1, 1⟩ ∧
          (r2.direction = (ray.direction.normalize sq).reflect rec.normal ∨
           r2.direction = (ray.direction.normalize sq).refract sq rec.normal
             (dielectricRatio ior rec))) ∧
    (dielectricRatio ior rec * dielectricSin sq ray rec > 1 →
        ∀ (u : ℚ) (v : Vec3),
          dielectricScatter sq ior ⟨v, u⟩ ray rec =
            some (⟨rec.point, (ray.direction.normalize sq).reflect rec.normal⟩,
              ⟨1, 1, 1⟩)) := by
  refine ⟨rfl, ?_, ?_⟩
  · intro r2 att h
    rw [dielectricScatter] at h
    simp only [Option.some.injEq, Prod.mk.injEq] at h
    refine ⟨h.2.symm, ?_⟩
    rw [← h.1]
    by_cases hc : dielectricRatio ior rec * dielectricSin sq ray rec > 1 ∨
        reflectance (dielectricCos sq ray rec) (dielectricRatio ior rec) > rnd.uniform
    · left; simp [hc]
    · right; simp [hc]
  · intro hTIR u v
    rw [dielectricScatter]
    simp [Or.inl hTIR]

/-- Witness for C4: a ray inside glass (`ior = 2`, back face) at incidence
beyond the critical angle reflects deterministically, with attenuation
`(1,1,1)`, even for a uniform draw (`99/100`) that exceeds the Schlick
reflectance. -/
theorem dielectric_scatter_spec_witness :
    dielectricRatio 2 recC4 * dielectricSin sqC4 rayC4 recC4 > 1 ∧
    dielectricScatter sqC4 2 ⟨⟨0, 0, 0⟩, 99 / 100⟩ rayC4 recC4 =
      some (⟨recC4.point, ⟨3 / 5, -4 / 5, 0⟩⟩, ⟨1, 1, 1⟩) := by
  have hTIR : dielectricRatio 2 recC4 * dielectricSin sqC4 rayC4 recC4 > 1 := by
    norm_num [dielectricRatio, dielectricSin, dielectricCos, recC4, rayC4, sqC4,
      Vec3.normalize, Vec3.len_squared, Vec3.dot]
  refine ⟨hTIR, ?_⟩
  rw [(dielectric_scatter_spec sqC4 2 ⟨⟨0, 0, 0⟩, 99 / 100⟩ rayC4 recC4).2.2 hTIR
    (99 / 100) ⟨0, 0, 0⟩]
  norm_num [Vec3.reflect, Vec3.normalize, Vec3.len_squared, Vec3.dot, recC4, rayC4,
    sqC4, Vec3.zero]

/-- Dot product with a negated right argument. -/
theorem Vec3.dot_neg_right (a b : Vec3) : a.dot (-b) = -(a.dot b) := by
  simp only [Vec3.dot, Vec3.neg_x, Vec3.neg_y, Vec3.neg_z]
  ring

/-- Every record returned by `Sphere::hit` is `mkRec` at one of the two
roots. -/
theorem SphereQ.hit_some_mkRec (sq : ℚ → ℚ) (s : SphereQ) (r : RayQ) (I : RangeF)
    (rec : HitRec) (hrec : s.hit sq r I = some rec) :
    rec = s.mkRec r (s.root1 sq r) ∨ rec = s.mkRec r (s.root2 sq r) := by
  by_cases hd : s.disc r < 0 <;> by_cases h1 : I.contains (s.root1 sq r) <;>
    by_cases h2 : I.contains (s.root2 sq r) <;>
    simp [SphereQ.hit, hd, h1, h2] at hrec <;> simp [hrec]

/-- The point stored by the record `Sphere::hit` builds. -/
theorem SphereQ.mkRec_point (s : SphereQ) (r : RayQ) (root : ℚ) :
    (s.mkRec r root).point = r.atParam root := rfl

/-- The orientation data stored by the record `Sphere::hit` builds. -/
theorem SphereQ.mkRec_face (s : SphereQ) (r : RayQ) (root : ℚ) :
    (s.mkRec r root).front_face =
      decide (r.direction.dot (s.outward (r.atParam root)) < 0) ∧
    (s.mkRec r root).normal =
      (if r.direction.dot (s.outward (r.atParam root)) < 0
       then s.outward (r.atParam root) else -(s.outward (r.atParam root))) := by
  constructor
  · rfl
  · show (if decide (r.direction.dot (s.outward (r.atParam root)) < 0) = true
        then s.outward (r.atParam root) else -(s.outward (r.atParam root))) = _
    by_cases h : r.direction.dot (s.outward (r.atParam root)) < 0 <;> simp [h]

/-- C5 (amended): for every record returned by `Sphere::hit`, `front_face`
is true exactly when the ray direction has *strictly negative* dot product
with the outward normal `(point - center)/radius` (the source's
`is_sign_negative` test); the stored normal is the outward normal when
`front_face` holds and its negation otherwise; and the stored normal never
points with the incoming ray (`direction ⬝ normal ≤ 0`). -/
theorem sphere_hit_face_normal (sq : ℚ → ℚ) (s : SphereQ) (r : RayQ) (I : RangeF)
    (rec : HitRec) (hrec : s.hit sq r I = some rec) :
    (rec.front_face = true ↔ r.direction.dot (s.outward rec.point) < 0) ∧
    rec.normal = (if r.direction.dot (s.outward rec.point) < 0
                  then s.outward rec.point else -(s.outward rec.point)) ∧
    r.direction.dot rec.normal ≤ 0 := by
  have hcase := SphereQ.hit_some_mkRec sq s r I rec hrec
  have main : ∀ root : ℚ, rec = s.mkRec r root →
      (rec.front_face = true ↔ r.direction.dot (s.outward rec.point) < 0) ∧
      rec.normal = (if r.direction.dot (s.outward rec.point) < 0
                    then s.outward rec.point else -(s.outward rec.point)) ∧
      r.direction.dot rec.normal ≤ 0 := by
    intro root heq
    subst heq
    rcases SphereQ.mkRec_face s r root with ⟨hf, hn⟩
    rw [SphereQ.mkRec_point] at *
    refine ⟨by rw [hf]; exact decide_eq_true_iff, hn, ?_⟩
    rw [hn]
    by_cases h : r.direction.dot (s.outward (r.atParam root)) < 0
    · rw [if_pos h]; exact le_of_lt h
    · rw [if_neg h, Vec3.dot_neg_right]
      exact neg_nonpos_of_nonneg (le_of_not_lt h)
  rcases hcase with h | h
  · exact main _ h
  · exact main _ h

/-- Witness for the amended C5 at the concrete radius-2 sphere hit: the ray
leaves the sphere from inside, so the hit is back-facing and the stored
normal is the negated outward normal. -/
theorem sphere_hit_face_normal_witness :
    (demoRec2.front_face = true ↔
        demoRay.direction.dot (demoSphere.outward demoRec2.point) < 0) ∧
    demoRec2.normal =
      (if demoRay.direction.dot (demoSphere.outward demoRec2.point) < 0
       then demoSphere.outward demoRec2.point
       else -(demoSphere.outward demoRec2.point)) ∧
    demoRay.direction.dot demoRec2.normal ≤ 0 :=
  sphere_hit_face_normal sqTwo demoSphere demoRay demoI2 demoRec2
    (by norm_num [SphereQ.hit, SphereQ.disc, SphereQ.root1, SphereQ.root2,
      SphereQ.mkRec, SphereQ.outward, set_face_normal, RayQ.atParam, demoSphere,
      demoRay, demoI2, demoRec2, demoMat, sqTwo, RangeF.contains, Vec3.len_squared,
      Vec3.dot])

/-- Counterexample to C5 as stated: a tangent (grazing) ray has dot product
exactly `0` with the outward normal — non-positive — yet `Sphere::hit`
(whose `is_sign_negative` test is strict) reports `front_face = false`.
The discriminant is `0`, so the modelled square root is exact. -/
theorem sphere_hit_face_normal_counterexample :
    IsSqrt (tangentSphere.disc tangentRay) (sqZero (tangentSphere.disc tangentRay)) ∧
    tangentSphere.hit sqZero tangentRay demoI2 = some tangentRec ∧
    tangentRay.direction.dot (tangentSphere.outward tangentRec.point) ≤ 0 ∧
    tangentRec.front_face = false := by
  refine ⟨?_, ?_, ?_, rfl⟩
  · constructor <;>
      norm_num [SphereQ.disc, tangentSphere, tangentRay, sqZero, Vec3.len_squared,
        Vec3.dot]
  · norm_num [SphereQ.hit, SphereQ.disc, SphereQ.root1, SphereQ.root2,
      SphereQ.mkRec, SphereQ.outward, set_face_normal, RayQ.atParam, tangentSphere,
      tangentRay, demoI2, tangentRec, demoMat, sqZero, RangeF.contains,
      Vec3.len_squared, Vec3.dot]
  · norm_num [SphereQ.outward, tangentSphere, tangentRay, tangentRec, Vec3.dot]

/-- The computed image height is always at least `1`. -/
theorem imageHeightNat_pos (b : CameraBuilderQ) : 0 < b.imageHeightNat :=
  lt_of_lt_of_le Nat.zero_lt_one (le_max_right _ 1)

/-- C6: building a `Camera` from a `CameraBuilder` never fails; passing `0`
to `with_image_width`, `with_samples_per_pixel` or `with_recursion_depth`
leaves the field unset; unset fields fall back to their defaults (image
width 100, samples per pixel 10, max depth 10) at build time; and the built
camera always carries strictly positive image width, sample count and
recursion depth. -/
theorem camera_build_defaults (b : CameraBuilderQ) :
    ∃ cam : CameraQ, b.build = some cam ∧
      cam.samples_per_pixel = b.samples_per_pixel.getD 10 ∧
      cam.image_width = b.image_width.getD 100 ∧
      cam.max_depth = b.max_depth.getD 10 ∧
      (b.with_image_width 0).image_width = none ∧
      (b.with_samples_per_pixel 0).samples_per_pixel = none ∧
      (b.with_recursion_depth 0).max_depth = none ∧
      0 < (cam.image_width : ℕ) ∧ 0 < (cam.samples_per_pixel : ℕ) ∧
      0 < (cam.max_depth : ℕ) := by
  refine ⟨⟨b.samples_per_pixel.getD 10, b.image_width.getD 100,
      ⟨b.imageHeightNat, imageHeightNat_pos b⟩, b.look_from.getD ⟨0, 0, -1⟩,
      b.max_depth.getD 10, b.defocus_angle.getD 0⟩, ?_, rfl, rfl, rfl, ?_, ?_, ?_,
      PNat.pos _, PNat.pos _, PNat.pos _⟩
  · rw [CameraBuilderQ.build, nonZeroNew, dif_pos (imageHeightNat_pos b)]
  · simp [CameraBuilderQ.with_image_width, nonZeroNew]
  · simp [CameraBuilderQ.with_samples_per_pixel, nonZeroNew]
  · simp [CameraBuilderQ.with_recursion_depth, nonZeroNew]

/-- C10: for every aspect ratio and image width the construction computes
the image height as `max 1` of the truncated quotient, so the built height
is at least `1`, the `NonZeroU64::new(..).expect(..)` guarding it cannot
panic, and `build` always succeeds — including for aspect ratios exceeding
the width, zero, or negative. -/
theorem camera_build_height_at_least_one (b : CameraBuilderQ) :
    ∃ cam : CameraQ, b.build = some cam ∧
      (cam.image_height : ℕ) =
        max (u64cast ((((b.image_width.getD 100 : ℕ+) : ℕ) : ℚ) /
          b.aspect_ratio.getD 1)) 1 ∧
      1 ≤ (cam.image_height : ℕ) ∧ b.build.isSome = true := by
  refine ⟨⟨b.samples_per_pixel.getD 10, b.image_width.getD 100,
      ⟨b.imageHeightNat, imageHeightNat_pos b⟩, b.look_from.getD ⟨0, 0, -1⟩,
      b.max_depth.getD 10, b.defocus_angle.getD 0⟩, ?_, rfl, imageHeightNat_pos b, ?_⟩
  · rw [CameraBuilderQ.build, nonZeroNew, dif_pos (imageHeightNat_pos b)]
  · rw [CameraBuilderQ.build, nonZeroNew, dif_pos (imageHeightNat_pos b)]
    rfl

/-- Counterexample to C7 as stated: with the exact square root of the
linear input `0.25` (namely `0.5`, also exact in `f32`), squaring the
gamma-corrected value returns `0.25`, not `0.0625`. -/
theorem linear_to_gamma_quarter_counterexample :
    IsSqrt (1 / 4) (sqHalf (1 / 4)) ∧
    linear_to_gamma sqHalf (1 / 4) * linear_to_gamma sqHalf (1 / 4) = 1 / 4 ∧
    ¬ linear_to_gamma sqHalf (1 / 4) * linear_to_gamma sqHalf (1 / 4) = 1 / 16 := by
  norm_num [IsSqrt, linear_to_gamma, sqHalf]

/-- C7 (amended): squaring the gamma-corrected value of a linear input
returns the input whenever the square root is exact — in particular,
squaring the gamma-corrected value of the linear input `0.0625` returns
`0.0625`. -/
theorem linear_to_gamma_roundtrip (sq : ℚ → ℚ) (x : ℚ) (h : IsSqrt x (sq x)) :
    linear_to_gamma sq x * linear_to_gamma sq x = x := h.2

/-- Witness for the amended C7 at linear input `0.0625`. -/
theorem linear_to_gamma_roundtrip_witness :
    linear_to_gamma sqQuarter (1 / 16) * linear_to_gamma sqQuarter (1 / 16) =
      1 / 16 :=
  linear_to_gamma_roundtrip sqQuarter (1 / 16) (by norm_num [IsSqrt, sqQuarter])

/-- The `as u8` cast never leaves `[0, 255]`. -/
theorem u8cast_le (q : ℚ) : u8cast q ≤ 255 := by
  rw [u8cast]
  split
  · exact Nat.zero_le 255
  · exact min_le_right _ 255

/-- `util::Range::clamp` on the static `INTENSITY` range lands in
`[0, 0.999]`. -/
theorem intensity_clamp_mem (v : ℚ) :
    0 ≤ URange.clamp ⟨0, 999 / 1000⟩ v ∧
      URange.clamp ⟨0, 999 / 1000⟩ v ≤ 999 / 1000 := by
  rw [URange.clamp]
  split
  · norm_num
  · split
    · norm_num
    · constructor <;> simp_all

/-- C8: `Color::write_ppm` emits one line of three integers; each channel
is the accumulated channel scaled by `1/samples_per_pixel`, square-root
gamma-corrected, clamped into `[0, 0.999]`, multiplied by `256` and
truncated, and therefore every emitted channel lies in `[0, 255]`. -/
theorem write_ppm_channels (sq : ℚ → ℚ) (c : Vec3) (n : ℕ+) :
    write_ppm sq c n =
      (u8cast (256 * URange.clamp ⟨0, 999 / 1000⟩
          (linear_to_gamma sq (c.x * (((n : ℕ) : ℚ))⁻¹))),
       u8cast (256 * URange.clamp ⟨0, 999 / 1000⟩
          (linear_to_gamma sq (c.y * (((n : ℕ) : ℚ))⁻¹))),
       u8cast (256 * URange.clamp ⟨0, 999 / 1000⟩
          (linear_to_gamma sq (c.z * (((n : ℕ) : ℚ))⁻¹)))) ∧
    (write_ppm sq c n).1 ≤ 255 ∧ (write_ppm sq c n).2.1 ≤ 255 ∧
      (write_ppm sq c n).2.2 ≤ 255 := by
  exact ⟨rfl, u8cast_le _, u8cast_le _, u8cast_le _⟩

/-- C9: `Metal::scatter` always returns `Some`: the scattered direction is
the fuzz-perturbed reflection with no test against the surface normal, the
attenuation is always the metal's albedo, and a perturbed direction that
ends up below the surface (`dot ≤ 0` with the normal) is passed through
unchanged rather than absorbed. -/
theorem metal_scatter_total (sq : ℚ → ℚ) (albedo : Vec3) (fuzz : ℚ)
    (rnd : RandDraw) (ray : RayQ) (rec : HitRec) :
    metalScatter sq albedo fuzz rnd ray rec =
      some (⟨rec.point,
        (ray.direction.normalize sq).reflect rec.normal + fuzz • rnd.unitVec⟩,
        albedo) ∧
    (((ray.direction.normalize sq).reflect rec.normal + fuzz • rnd.unitVec).dot
        rec.normal ≤ 0 →
      ∃ out : RayQ × Vec3, metalScatter sq albedo fuzz rnd ray rec = some out ∧
        out.1.direction =
          (ray.direction.normalize sq).reflect rec.normal + fuzz • rnd.unitVec ∧
        out.2 = albedo) := by
  exact ⟨rfl, fun _ => ⟨_, rfl, rfl, rfl⟩⟩

/-- Witness for C9: a fuzz-perturbed reflection that lands below the
surface (dot `-1` with the normal) is still returned, with the albedo as
attenuation. -/
theorem metal_scatter_total_witness :
    ((rayC9.direction.normalize sqOne).reflect recC9.normal +
        (1 : ℚ) • rndC9.unitVec).dot recC9.normal ≤ 0 ∧
    metalScatter sqOne ⟨1, 0, 0⟩ 1 rndC9 rayC9 recC9 =
      some (⟨recC9.point, ⟨0, -1, 0⟩⟩, ⟨1, 0, 0⟩) := by
  have hbelow : ((rayC9.direction.normalize sqOne).reflect recC9.normal +
      (1 : ℚ) • rndC9.unitVec).dot recC9.normal ≤ 0 := by
    norm_num [Vec3.reflect, Vec3.normalize, Vec3.len_squared, Vec3.dot, recC9,
      rayC9, rndC9, sqOne]
  refine ⟨hbelow, ?_⟩
  rw [(metal_scatter_total sqOne ⟨1, 0, 0⟩ 1 rndC9 rayC9 recC9).1]
  norm_num [Vec3.reflect, Vec3.normalize, Vec3.len_squared, Vec3.dot, recC9,
    rayC9, rndC9, sqOne]
